import Mathlib

/-!
Verification development for the `file_warmer` repository.

The repository ships a single Python source file,
`src/py_file_warmer/setup.py`, which is pure packaging: it bundles a
native header and shared object (`lib/*.h`, `lib/*.so`) that hold the
actual file-block reading engine.  The engine implementation is not part
of the repository's source tree, so every engine-level definition below
is modelled from the specification's own words (each such definition's
doc comment starts with `Modelled from the spec:`).  The packaging layer
is embedded directly from `setup.py`.
-/

namespace FileWarmer

/-! ## Packaging layer: `src/py_file_warmer/setup.py` -/

/-- The keyword arguments of a `setuptools.setup` call, as far as the
packaging metadata of this repository goes. -/
structure SetupArgs where
  pkgName : String
  version : String
  description : String
  packageData : List (String × List String)
  pythonRequires : String
deriving Repr, DecidableEq

/-- Embedding of the single, unconditional `setuptools.setup(...)` call in
`src/py_file_warmer/setup.py` (the module's only top-level statement besides
the imports).  The call site passes these literal arguments. -/
def setupCall : SetupArgs :=
  { pkgName := "file_warmer"
  , version := "0.0.5"
  , description := "Library to read file blocks as fast as possible"
  , packageData := [("file_warmer", ["lib/*.h", "lib/*.so"])]
  , pythonRequires := ">=3.6" }

/-! ## Engine data model (modelled from the spec, sections 3 and 6) -/

/-- Modelled from the spec: the error taxonomy of section 7 — `OpenError`
surfaces at descriptor-acquire time, `IoFault` is a device-level read
failure. -/
inductive ErrorKind
  | OpenError
  | IoFault
deriving Repr, DecidableEq

/-- Modelled from the spec: the status of a `BlockResult`
(`Complete`/`Partial`/`Eof`/`Error(kind)`), plus the `Incomplete` sentinel
the Aggregator uses for requests outstanding at cancellation. -/
inductive Status
  | Complete
  | Partial
  | Eof
  | Error (kind : ErrorKind)
  | Incomplete
deriving Repr, DecidableEq

/-- A status is terminal when it records a finished read attempt; only the
cancellation sentinel `Incomplete` is non-terminal. -/
def Status.isTerminal : Status → Bool
  | .Incomplete => false
  | _ => true

/-- Modelled from the spec: a `BlockRequest`
`\x7b file_id, offset, length, priority \x7d` (section 3); `file_id` is a
path here, the `request_id` is assigned at submission as the submission
index. -/
structure BlockRequest where
  path : String
  offset : Nat
  length : Nat
  priority : Nat
deriving Repr, DecidableEq

/-- Modelled from the spec: a `BlockResult`
`\x7b request_id, bytes_read, status, buffer \x7d` (section 3). -/
structure BlockResult where
  requestId : Nat
  bytesRead : Nat
  status : Status
  buffer : List Nat
deriving Repr, DecidableEq

/-- Modelled from the spec: the warmed storage — finitely many files, each
a path paired with its byte contents. -/
def FileSystem := List (String × List Nat)

/-- Look a path up in the file system; `none` models a missing path (the
pool's `OpenError` case). -/
def lookupFile (fs : FileSystem) (path : String) : Option (List Nat) :=
  (fs.find? (fun e => e.1 == path)).map (fun e => e.2)

/-- The bytes a positioned read of `length` bytes at `offset` returns:
everything available in `[offset, offset+length)`, truncated at
end-of-file. -/
def readBytes (contents : List Nat) (offset length : Nat) : List Nat :=
  (contents.drop offset).take length

/-- Modelled from the spec: one I/O Worker read (section 4.3).  Acquire the
file (a missing path is `Error OpenError`), perform the positioned read,
classify the outcome: all requested bytes → `Complete`; zero bytes at or
past end-of-file → `Eof`; otherwise a short read → `Partial`. -/
def readBlock (fs : FileSystem) (rid : Nat) (r : BlockRequest) : BlockResult :=
  match lookupFile fs r.path with
  | none => { requestId := rid, bytesRead := 0, status := .Error .OpenError, buffer := [] }
  | some contents =>
      let bytes := readBytes contents r.offset r.length
      { requestId := rid
      , bytesRead := bytes.length
      , status :=
          if bytes.length = r.length then .Complete
          else if bytes.length = 0 then .Eof
          else .Partial
      , buffer := bytes }

/-- Modelled from the spec: the Aggregator's sentinel result for a request
never dispatched before cancellation (section 4.4). -/
def incompleteResult (rid : Nat) : BlockResult :=
  { requestId := rid, bytesRead := 0, status := .Incomplete, buffer := [] }

/-- Helper for `warm`: read each request, assigning submission indices
starting at `i` as request ids, results in submission order. -/
def warmFrom (fs : FileSystem) (i : Nat) : List BlockRequest → List BlockResult
  | [] => []
  | r :: rs => readBlock fs i r :: warmFrom fs (i + 1) rs

/-- Modelled from the spec: the Engine Facade's
`warm(requests, options) -> results` (section 4.5): every submitted
request gets exactly one result, assembled in submission order. -/
def warm (fs : FileSystem) (reqs : List BlockRequest) : List BlockResult :=
  warmFrom fs 0 reqs

/-! ## File Handle Pool (modelled from the spec, sections 3, 4.1 and 5) -/

/-- Modelled from the spec: an `OpenFileEntry`
`\x7b path, descriptor, reference_count, last_used_timestamp \x7d`
(section 3).  The descriptor itself is represented by the entry's presence
in the pool (present = open, removed = closed); `refCount` is an integer so
that the non-negativity invariant is a real statement. -/
structure OpenFileEntry where
  path : String
  refCount : Int
  lastUsed : Nat
deriving Repr, DecidableEq

/-- Modelled from the spec: the File Handle Pool's descriptor table
(section 4.1): one entry per open path. -/
structure PoolState where
  entries : List OpenFileEntry
deriving Repr, DecidableEq

/-- The pool starts with no open descriptors. -/
def initPool : PoolState := { entries := [] }

/-- Modelled from the spec: the operations serialized through the pool
(section 5: all mutation goes through acquire/release, plus the idle
eviction of section 4.1).  `now` is the timestamp of the operation. -/
inductive PoolOp
  | acquire (path : String) (now : Nat)
  | release (path : String) (now : Nat)
  | evict (path : String) (now : Nat)
deriving Repr, DecidableEq

/-- Update the entry for `path`, bumping its reference count by `d` and
refreshing its timestamp. -/
def bumpEntry (path : String) (d : Int) (now : Nat) :
    List OpenFileEntry → List OpenFileEntry
  | [] => []
  | e :: es =>
      if e.path = path then
        { e with refCount := e.refCount + d, lastUsed := now } :: es
      else
        e :: bumpEntry path d now es

/-- Remove the entry for `path` from the table (closing its descriptor). -/
def dropEntry (path : String) : List OpenFileEntry → List OpenFileEntry
  | [] => []
  | e :: es => if e.path = path then es else e :: dropEntry path es

/-- The reference count currently recorded for `path` (`none` when the path
has no open descriptor). -/
def refCountOf (path : String) : List OpenFileEntry → Option Int
  | [] => none
  | e :: es => if e.path = path then some e.refCount else refCountOf path es

/-- Modelled from the spec: one pool transition (sections 4.1 and 5).
`acquire` opens the path read-only if not already open (fresh entry with
reference count 1) and otherwise increments the existing count; `release`
decrements the count of a held descriptor (per section 3 workers borrow a
descriptor and release exactly what they acquired, so a release against a
path that is not open or not referenced is ill-formed and rejected);
`evict` closes an idle descriptor — only when its reference count is zero
and it has been unused for at least `idle` time units.  `none` means the
operation is not enabled in this state. -/
def applyOp (idle : Nat) : PoolOp → PoolState → Option PoolState
  | .acquire path now, s =>
      match refCountOf path s.entries with
      | none =>
          some { entries := { path := path, refCount := 1, lastUsed := now } :: s.entries }
      | some _ =>
          some { entries := bumpEntry path 1 now s.entries }
  | .release path now, s =>
      match refCountOf path s.entries with
      | none => none
      | some c =>
          if 0 < c then some { entries := bumpEntry path (-1) now s.entries }
          else none
  | .evict path now, s =>
      match s.entries.find? (fun e => e.path == path) with
      | none => none
      | some e =>
          if e.refCount = 0 ∧ idle ≤ now - e.lastUsed then
            some { entries := dropEntry path s.entries }
          else none

/-- Run a sequence of pool operations from a state; `none` as soon as an
operation is not enabled. -/
def runOps (idle : Nat) : List PoolOp → PoolState → Option PoolState
  | [], s => some s
  | op :: ops, s =>
      match applyOp idle op s with
      | none => none
      | some s1 => runOps idle ops s1

/-! ## Scheduler (modelled from the spec, sections 4.2 and 5) -/

/-- Modelled from the spec: the options of section 6 that govern dispatch —
the global in-flight cap and the per-file cap. -/
structure SchedConfig where
  maxConcurrency : Nat
  maxConcurrencyPerFile : Nat
deriving Repr, DecidableEq

/-- `decideBetter cur q` holds when pending entry `q` (a submission index
paired with its request) must be preferred over `cur`: strictly higher
priority, or equal priority and earlier submission (FIFO within a priority
class, section 4.2). -/
def decideBetter (cur q : Nat × BlockRequest) : Bool :=
  (cur.2.priority < q.2.priority) || (q.2.priority = cur.2.priority && q.1 < cur.1)

/-- Modelled from the spec: the dequeue choice of section 4.2 — among the
pending entries, the one with the highest priority, ties broken by lowest
submission index. -/
def selectNext : List (Nat × BlockRequest) → Option (Nat × BlockRequest)
  | [] => none
  | p :: ps => some (ps.foldl (fun cur q => if decideBetter cur q then q else cur) p)

/-- Modelled from the spec: the Scheduler's dispatch state — the pending
queue (submission index, request) and the in-flight reads. -/
structure SchedState where
  pending : List (Nat × BlockRequest)
  inflight : List (Nat × BlockRequest)
deriving Repr, DecidableEq

/-- The number of in-flight reads against `path`. -/
def inflightOnFile (path : String) (inflight : List (Nat × BlockRequest)) : Nat :=
  inflight.countP (fun q => q.2.path == path)

/-- Modelled from the spec: both caps of section 4.2 permit dispatching
request `r` — the global in-flight count is below `maxConcurrency` and the
in-flight count against `r`'s file is below `maxConcurrencyPerFile`. -/
def capsAllow (cfg : SchedConfig) (s : SchedState) (r : BlockRequest) : Bool :=
  decide (s.inflight.length < cfg.maxConcurrency) &&
    decide (inflightOnFile r.path s.inflight < cfg.maxConcurrencyPerFile)

/-- Modelled from the spec: the scheduler's transitions — `dispatch` moves
the selected pending request in-flight when both caps permit; `complete`
retires an in-flight read (workers finish in any order).  `none` means the
transition is not enabled. -/
inductive SchedOp
  | dispatch
  | complete (rid : Nat)
deriving Repr, DecidableEq

/-- One scheduler transition (section 4.2: dispatch respects both caps and
dequeues in priority order; completions retire in-flight reads). -/
def schedStep (cfg : SchedConfig) : SchedOp → SchedState → Option SchedState
  | .dispatch, s =>
      match selectNext s.pending with
      | none => none
      | some c =>
          if capsAllow cfg s c.2 then
            some { pending := s.pending.erase c, inflight := c :: s.inflight }
          else none
  | .complete rid, s =>
      if s.inflight.any (fun q => q.1 == rid) then
        some { pending := s.pending, inflight := s.inflight.eraseP (fun q => q.1 == rid) }
      else none

/-- Run a sequence of scheduler transitions. -/
def runSched (cfg : SchedConfig) : List SchedOp → SchedState → Option SchedState
  | [], s => some s
  | op :: ops, s =>
      match schedStep cfg op s with
      | none => none
      | some s1 => runSched cfg ops s1

/-- The scheduler state a freshly submitted batch starts in: every request
pending with its submission index, nothing in flight. -/
def initSched (reqs : List BlockRequest) : SchedState :=
  { pending := reqs.enum, inflight := [] }

/-! ## Cancellation (modelled from the spec, sections 4.4 and 5) -/

/-- Helper for `warmCancelled`: assemble results in submission order from
index `i` on — a dispatched request's read is allowed to finish and its
result recorded, a never-dispatched request gets the `Incomplete`
sentinel. -/
def warmCancelledFrom (fs : FileSystem) (dispatched : Nat → Bool) (i : Nat) :
    List BlockRequest → List BlockResult
  | [] => []
  | r :: rs =>
      (if dispatched i then readBlock fs i r else incompleteResult i) ::
        warmCancelledFrom fs dispatched (i + 1) rs

/-- Modelled from the spec: the result sequence a cancelled (or timed-out)
batch returns (sections 4.4 and 5): in-flight and finished reads are
recorded with their real results, requests never dispatched are marked
`Incomplete`, and assembly is still in submission order.  `dispatched i`
says whether the request with submission index `i` was dispatched before
the cancellation took effect. -/
def warmCancelled (fs : FileSystem) (dispatched : Nat → Bool)
    (reqs : List BlockRequest) : List BlockResult :=
  warmCancelledFrom fs dispatched 0 reqs

/-! ## Coalescing (modelled from the spec, section 4.2) -/

/-- The lower end of the merged read covering two requests. -/
def mergeLo (r1 r2 : BlockRequest) : Nat :=
  min r1.offset r2.offset

/-- The upper end (exclusive) of the merged read covering two requests. -/
def mergeHi (r1 r2 : BlockRequest) : Nat :=
  max (r1.offset + r1.length) (r2.offset + r2.length)

/-- The gap between two byte ranges on the same file: zero when they touch
or overlap, otherwise the distance between them. -/
def rangeGap (r1 r2 : BlockRequest) : Nat :=
  max (r1.offset - (r2.offset + r2.length)) (r2.offset - (r1.offset + r1.length))

/-- Modelled from the spec: two requests may be coalesced when they target
the same file and are adjacent or overlapping within the configured
coalescing distance (section 4.2). -/
def canCoalesce (coalesceDistance : Nat) (r1 r2 : BlockRequest) : Bool :=
  r1.path == r2.path && decide (rangeGap r1 r2 ≤ coalesceDistance)

/-- Modelled from the spec: the redistribution step of coalescing
(section 4.2) — the merged read covers `[lo, hi)`, and each original
request is handed the slice of the merged buffer that its own offset and
length denote. -/
def redistributedBytes (contents : List Nat) (lo hi : Nat) (r : BlockRequest) :
    List Nat :=
  ((readBytes contents lo (hi - lo)).drop (r.offset - lo)).take r.length

/-! ## Basic lemmas about the engine model -/

theorem warmFrom_length (fs : FileSystem) (i : Nat) (reqs : List BlockRequest) :
    (warmFrom fs i reqs).length = reqs.length := by
  induction reqs generalizing i with
  | nil => rfl
  | cons r rs ih => simp [warmFrom, ih]

theorem warmFrom_get? (fs : FileSystem) (i j : Nat) (reqs : List BlockRequest) :
    (warmFrom fs i reqs).get? j = (reqs.get? j).map (fun r => readBlock fs (i + j) r) := by
  induction reqs generalizing i j with
  | nil => simp [warmFrom]
  | cons r rs ih =>
    cases j with
    | zero => simp [warmFrom]
    | succ j =>
      simp only [warmFrom, List.get?]
      rw [ih]
      have harith : i + 1 + j = i + (j + 1) := by omega
      rw [harith]

theorem warm_get? (fs : FileSystem) (j : Nat) (reqs : List BlockRequest) :
    (warm fs reqs).get? j = (reqs.get? j).map (fun r => readBlock fs j r) := by
  simpa using warmFrom_get? fs 0 j reqs

theorem readBlock_terminal (fs : FileSystem) (rid : Nat) (r : BlockRequest) :
    (readBlock fs rid r).status.isTerminal = true := by
  unfold readBlock
  cases lookupFile fs r.path with
  | none => rfl
  | some contents =>
    simp only
    split
    · rfl
    · split <;> rfl

/-- C1: every submitted `BlockRequest` yields exactly one `BlockResult`
(`warm` never drops a request), and position `j` of the returned sequence
is the result of the request submitted at position `j`. -/
theorem warm_one_result_per_request_in_order (fs : FileSystem)
    (reqs : List BlockRequest) :
    (warm fs reqs).length = reqs.length ∧
    ∀ j : Nat, (warm fs reqs).get? j = (reqs.get? j).map (fun r => readBlock fs j r) := by
  exact ⟨warmFrom_length fs 0 reqs, fun j => warm_get? fs j reqs⟩

theorem readBytes_length (contents : List Nat) (offset length : Nat) :
    (readBytes contents offset length).length =
      min length (contents.length - offset) := by
  simp [readBytes]

/-- C2: a request whose byte range lies entirely within the file's current
size comes back `Complete` with `bytes_read` equal to the requested
length. -/
theorem warm_within_range_complete (fs : FileSystem) (reqs : List BlockRequest)
    (j : Nat) (r : BlockRequest) (contents : List Nat)
    (hj : reqs.get? j = some r)
    (hf : lookupFile fs r.path = some contents)
    (hrange : r.offset + r.length ≤ contents.length) :
    ∃ res, (warm fs reqs).get? j = some res ∧
      res.status = Status.Complete ∧ res.bytesRead = r.length := by
  refine ⟨readBlock fs j r, by rw [warm_get?, hj]; rfl, ?_⟩
  have hlen : (readBytes contents r.offset r.length).length = r.length := by
    rw [readBytes_length]
    omega
  unfold readBlock
  rw [hf]
  simp [hlen]

/-- C3: a request whose offset is at or beyond end-of-file comes back
`Eof` with `bytes_read = 0`. -/
theorem warm_past_eof (fs : FileSystem) (reqs : List BlockRequest)
    (j : Nat) (r : BlockRequest) (contents : List Nat)
    (hj : reqs.get? j = some r)
    (hf : lookupFile fs r.path = some contents)
    (hoff : contents.length ≤ r.offset)
    (hpos : 0 < r.length) :
    ∃ res, (warm fs reqs).get? j = some res ∧
      res.status = Status.Eof ∧ res.bytesRead = 0 := by
  refine ⟨readBlock fs j r, by rw [warm_get?, hj]; rfl, ?_⟩
  have hlen : (readBytes contents r.offset r.length).length = 0 := by
    rw [readBytes_length]
    omega
  unfold readBlock
  rw [hf]
  simp only [hlen]
  have : ¬(0 = r.length) := by omega
  simp [this]

/-- C5: failures are scoped to the request that caused them — a missing
path yields `Error OpenError` for the request that needed it, while every
other request in the batch still runs to its own terminal result, exactly
as an independent read of it would. -/
theorem warm_failure_scoped (fs : FileSystem) (reqs : List BlockRequest)
    (i : Nat) (r : BlockRequest)
    (hi : reqs.get? i = some r)
    (hmiss : lookupFile fs r.path = none) :
    (∃ res, (warm fs reqs).get? i = some res ∧
      res.status = Status.Error ErrorKind.OpenError) ∧
    ∀ j s, reqs.get? j = some s → j ≠ i →
      (warm fs reqs).get? j = some (readBlock fs j s) ∧
      (readBlock fs j s).status.isTerminal = true := by
  constructor
  · refine ⟨readBlock fs i r, by rw [warm_get?, hi]; rfl, ?_⟩
    unfold readBlock
    rw [hmiss]
  · intro j s hj _
    exact ⟨by rw [warm_get?, hj]; rfl, readBlock_terminal fs j s⟩

/-! ## Lemmas about cancellation -/

theorem status_incomplete_iff_not_terminal (st : Status) :
    (st == Status.Incomplete) = !st.isTerminal := by
  cases st <;> rfl

theorem countP_incomplete_eq (rs : List BlockResult) :
    rs.countP (fun res => res.status == Status.Incomplete) =
      rs.length - rs.countP (fun res => res.status.isTerminal) := by
  induction rs with
  | nil => rfl
  | cons r rs ih =>
    have hle := List.countP_le_length (fun res => res.status.isTerminal) (l := rs)
    rw [List.countP_cons, List.countP_cons, status_incomplete_iff_not_terminal,
      List.length_cons, ih]
    cases h : r.status.isTerminal
    · rw [if_pos (by rfl : (!false) = true), if_neg (by simp : ¬(false = true))]
      omega
    · rw [if_neg (by simp : ¬((!true) = true)), if_pos rfl]
      omega

theorem warmCancelledFrom_length (fs : FileSystem) (disp : Nat → Bool) (i : Nat)
    (reqs : List BlockRequest) :
    (warmCancelledFrom fs disp i reqs).length = reqs.length := by
  induction reqs generalizing i with
  | nil => rfl
  | cons r rs ih => simp [warmCancelledFrom, ih]

theorem warmCancelledFrom_get? (fs : FileSystem) (disp : Nat → Bool) (i j : Nat)
    (reqs : List BlockRequest) :
    (warmCancelledFrom fs disp i reqs).get? j =
      (reqs.get? j).map
        (fun r => if disp (i + j) then readBlock fs (i + j) r else incompleteResult (i + j)) := by
  induction reqs generalizing i j with
  | nil => simp [warmCancelledFrom]
  | cons r rs ih =>
    cases j with
    | zero => simp [warmCancelledFrom]
    | succ j =>
      simp only [warmCancelledFrom, List.get?]
      rw [ih]
      have harith : i + 1 + j = i + (j + 1) := by omega
      rw [harith]

theorem warmCancelledFrom_terminal_count (fs : FileSystem) (disp : Nat → Bool)
    (i : Nat) (reqs : List BlockRequest) :
    (warmCancelledFrom fs disp i reqs).countP (fun res => res.status.isTerminal) =
      (List.range' i reqs.length).countP disp := by
  induction reqs generalizing i with
  | nil => rfl
  | cons r rs ih =>
    have hhead :
        ((if disp i then readBlock fs i r else incompleteResult i).status.isTerminal) =
          disp i := by
      cases h : disp i
      · simp [h, incompleteResult, Status.isTerminal]
      · simpa [h] using readBlock_terminal fs i r
    rw [warmCancelledFrom, List.length_cons, List.range'_succ, List.countP_cons,
      List.countP_cons, hhead, ih]

/-- C6: cancelling a batch of `M` requests after the requests in
`dispatched` (exactly `n` of them) were dispatched yields exactly `n`
results with a terminal status and `M - n` results marked `Incomplete`;
each dispatched request's read runs to its recorded result and each
never-dispatched request gets the `Incomplete` sentinel, in submission
order. -/
theorem cancelled_batch_partial_delivery (fs : FileSystem) (disp : Nat → Bool)
    (reqs : List BlockRequest) (n : Nat)
    (hn : (List.range reqs.length).countP disp = n) :
    (warmCancelled fs disp reqs).length = reqs.length ∧
    (warmCancelled fs disp reqs).countP (fun res => res.status.isTerminal) = n ∧
    (warmCancelled fs disp reqs).countP (fun res => res.status == Status.Incomplete) =
      reqs.length - n ∧
    ∀ j r, reqs.get? j = some r →
      (warmCancelled fs disp reqs).get? j =
        some (if disp j then readBlock fs j r else incompleteResult j) := by
  have hterm :
      (warmCancelled fs disp reqs).countP (fun res => res.status.isTerminal) = n := by
    rw [warmCancelled, warmCancelledFrom_terminal_count, ← List.range_eq_range', hn]
  refine ⟨warmCancelledFrom_length fs disp 0 reqs, hterm, ?_, ?_⟩
  · rw [countP_incomplete_eq, hterm, warmCancelled, warmCancelledFrom_length]
  · intro j r hj
    rw [warmCancelled, warmCancelledFrom_get?, hj]
    simp

/-! ## Lemmas about coalescing -/

theorem redistributedBytes_eq (l : List Nat) (lo hi : Nat) (r : BlockRequest)
    (h1 : lo ≤ r.offset) (h2 : r.offset + r.length ≤ hi) :
    redistributedBytes l lo hi r = readBytes l r.offset r.length := by
  unfold redistributedBytes readBytes
  rw [List.drop_take (hi - lo) (r.offset - lo), List.drop_drop, List.take_take]
  have e1 : lo + (r.offset - lo) = r.offset := by omega
  have e2 : min r.length (hi - lo - (r.offset - lo)) = r.length := by omega
  rw [e1, e2]

/-- C8: when two requests against the same file are merged by coalescing,
redistributing the merged read's bytes hands each original request exactly
the bytes its own offset and length denote — the same bytes an independent
read of that request would return. -/
theorem coalesced_requests_exact_bytes (fs : FileSystem) (contents : List Nat)
    (d : Nat) (r1 r2 : BlockRequest)
    (_hc : canCoalesce d r1 r2 = true)
    (_hf : lookupFile fs r1.path = some contents) :
    redistributedBytes contents (mergeLo r1 r2) (mergeHi r1 r2) r1 =
      readBytes contents r1.offset r1.length ∧
    redistributedBytes contents (mergeLo r1 r2) (mergeHi r1 r2) r2 =
      readBytes contents r2.offset r2.length := by
  constructor
  · exact redistributedBytes_eq contents _ _ r1 (Nat.min_le_left _ _)
      (Nat.le_max_left _ _)
  · exact redistributedBytes_eq contents _ _ r2 (Nat.min_le_right _ _)
      (Nat.le_max_right _ _)

/-! ## Lemmas about the scheduler's dequeue choice -/

/-- `NotWorse c q`: in the scheduler's dispatch order, `c` does not come
after `q` — `c` has strictly higher priority, or equal priority and an
equal or earlier submission index. -/
def NotWorse (c q : Nat × BlockRequest) : Prop :=
  q.2.priority < c.2.priority ∨ (q.2.priority = c.2.priority ∧ c.1 ≤ q.1)

theorem notWorse_refl (c : Nat × BlockRequest) : NotWorse c c := by
  right
  exact ⟨rfl, Nat.le_refl _⟩

theorem notWorse_trans (a b c : Nat × BlockRequest)
    (h1 : NotWorse a b) (h2 : NotWorse b c) : NotWorse a c := by
  unfold NotWorse at h1 h2 ⊢
  omega

theorem decideBetter_eq_false (cur q : Nat × BlockRequest)
    (h : decideBetter cur q = false) : NotWorse cur q := by
  unfold decideBetter at h
  unfold NotWorse
  simp only [Bool.or_eq_false_iff, Bool.and_eq_false_iff, decide_eq_false_iff_not] at h
  omega

theorem decideBetter_eq_true (cur q : Nat × BlockRequest)
    (h : decideBetter cur q = true) : NotWorse q cur := by
  unfold decideBetter at h
  unfold NotWorse
  simp only [Bool.or_eq_true, Bool.and_eq_true, decide_eq_true_iff] at h
  omega

theorem foldl_choice (ps : List (Nat × BlockRequest)) (p : Nat × BlockRequest) :
    (ps.foldl (fun cur q => if decideBetter cur q then q else cur) p = p ∨
      ps.foldl (fun cur q => if decideBetter cur q then q else cur) p ∈ ps) ∧
    NotWorse (ps.foldl (fun cur q => if decideBetter cur q then q else cur) p) p ∧
    ∀ q ∈ ps, NotWorse (ps.foldl (fun cur q => if decideBetter cur q then q else cur) p) q := by
  induction ps generalizing p with
  | nil => exact ⟨Or.inl rfl, notWorse_refl p, fun q hq => absurd hq (List.not_mem_nil q)⟩
  | cons q ps ih =>
    have step : (q :: ps).foldl (fun cur r => if decideBetter cur r then r else cur) p =
        ps.foldl (fun cur r => if decideBetter cur r then r else cur)
          (if decideBetter p q then q else p) := by
      rfl
    obtain ⟨hmem, hacc, hall⟩ := ih (if decideBetter p q then q else p)
    rw [step]
    have hq : NotWorse (if decideBetter p q then q else p) q := by
      by_cases hb : decideBetter p q = true
      · rw [if_pos hb]
        exact notWorse_refl q
      · rw [if_neg hb]
        exact decideBetter_eq_false p q (Bool.eq_false_iff.mpr hb)
    have hp : NotWorse (if decideBetter p q then q else p) p := by
      by_cases hb : decideBetter p q = true
      · rw [if_pos hb]
        exact decideBetter_eq_true p q hb
      · rw [if_neg hb]
        exact notWorse_refl p
    refine ⟨?_, ?_, ?_⟩
    · rcases hmem with hmem | hmem
      · rw [hmem]
        by_cases hb : decideBetter p q = true
        · rw [if_pos hb]
          exact Or.inr (List.mem_cons_self q ps)
        · rw [if_neg hb]
          exact Or.inl rfl
      · exact Or.inr (List.mem_cons_of_mem q hmem)
    · exact notWorse_trans _ _ _ hacc hp
    · intro r hr
      rcases List.mem_cons.mp hr with hr | hr
      · rw [hr]
        exact notWorse_trans _ _ _ hacc hq
      · exact hall r hr

theorem selectNext_spec (pending : List (Nat × BlockRequest))
    (c : Nat × BlockRequest) (h : selectNext pending = some c) :
    c ∈ pending ∧ ∀ q ∈ pending, NotWorse c q := by
  cases pending with
  | nil => exact absurd h (by simp [selectNext])
  | cons p ps =>
    have hc : c = ps.foldl (fun cur q => if decideBetter cur q then q else cur) p := by
      simpa [selectNext] using h.symm
    obtain ⟨hmem, hacc, hall⟩ := foldl_choice ps p
    subst hc
    refine ⟨?_, ?_⟩
    · rcases hmem with hmem | hmem
      · rw [hmem]
        exact List.mem_cons_self p ps
      · exact List.mem_cons_of_mem p hmem
    · intro q hq
      rcases List.mem_cons.mp hq with hq | hq
      · rw [hq]
        exact hacc
      · exact hall q hq

/-- C7: whenever both concurrency caps permit dispatch, the scheduler
dequeues a pending request with the highest priority, breaking priority
ties by earliest submission index (FIFO within a priority class), and
moves exactly that request in flight — so dispatch order is a function of
the state. -/
theorem dispatch_highest_priority_fifo (cfg : SchedConfig) (s s' : SchedState)
    (h : schedStep cfg SchedOp.dispatch s = some s') :
    ∃ c, c ∈ s.pending ∧ capsAllow cfg s c.2 = true ∧
      s'.inflight = c :: s.inflight ∧ s'.pending = s.pending.erase c ∧
      ∀ q ∈ s.pending, q.2.priority < c.2.priority ∨
        (q.2.priority = c.2.priority ∧ c.1 ≤ q.1) := by
  cases hsel : selectNext s.pending with
  | none => simp [schedStep, hsel] at h
  | some c =>
    simp only [schedStep, hsel] at h
    by_cases hcaps : capsAllow cfg s c.2 = true
    · rw [if_pos hcaps] at h
      obtain ⟨hmem, hall⟩ := selectNext_spec s.pending c hsel
      refine ⟨c, hmem, hcaps, ?_, ?_, fun q hq => hall q hq⟩
      · exact (congrArg SchedState.inflight (Option.some.inj h)).symm
      · exact (congrArg SchedState.pending (Option.some.inj h)).symm
    · rw [if_neg hcaps] at h
      exact absurd h (by simp)

/-! ## Lemmas about the concurrency caps -/

/-- Both caps of section 4.2 hold of a scheduler state. -/
def CapsInv (cfg : SchedConfig) (s : SchedState) : Prop :=
  s.inflight.length ≤ cfg.maxConcurrency ∧
  ∀ path, inflightOnFile path s.inflight ≤ cfg.maxConcurrencyPerFile

theorem schedStep_dispatch_inv (cfg : SchedConfig) (s s' : SchedState)
    (h : schedStep cfg SchedOp.dispatch s = some s') :
    ∃ c, selectNext s.pending = some c ∧ capsAllow cfg s c.2 = true ∧
      s' = { pending := s.pending.erase c, inflight := c :: s.inflight } := by
  cases hsel : selectNext s.pending with
  | none => simp [schedStep, hsel] at h
  | some c =>
    simp only [schedStep, hsel] at h
    by_cases hcaps : capsAllow cfg s c.2 = true
    · rw [if_pos hcaps] at h
      exact ⟨c, rfl, hcaps, (Option.some.inj h).symm⟩
    · rw [if_neg hcaps] at h
      exact absurd h (by simp)

theorem schedStep_complete_inv (cfg : SchedConfig) (rid : Nat) (s s' : SchedState)
    (h : schedStep cfg (SchedOp.complete rid) s = some s') :
    s' = { pending := s.pending, inflight := s.inflight.eraseP (fun q => q.1 == rid) } := by
  simp only [schedStep] at h
  by_cases hany : s.inflight.any (fun q => q.1 == rid) = true
  · rw [if_pos hany] at h
    exact (Option.some.inj h).symm
  · rw [if_neg hany] at h
    exact absurd h (by simp)

theorem capsAllow_spec (cfg : SchedConfig) (s : SchedState) (r : BlockRequest)
    (h : capsAllow cfg s r = true) :
    s.inflight.length < cfg.maxConcurrency ∧
    inflightOnFile r.path s.inflight < cfg.maxConcurrencyPerFile := by
  unfold capsAllow at h
  simp only [Bool.and_eq_true, decide_eq_true_iff] at h
  exact h

theorem schedStep_preserves_caps (cfg : SchedConfig) (op : SchedOp)
    (s s' : SchedState) (hs : CapsInv cfg s) (h : schedStep cfg op s = some s') :
    CapsInv cfg s' := by
  cases op with
  | dispatch =>
    obtain ⟨c, _, hcaps, hs'⟩ := schedStep_dispatch_inv cfg s s' h
    obtain ⟨hg, hpf⟩ := capsAllow_spec cfg s c.2 hcaps
    subst hs'
    constructor
    · simpa using hg
    · intro path
      show (c :: s.inflight).countP (fun q => q.2.path == path) ≤ _
      rw [List.countP_cons]
      unfold inflightOnFile at hpf
      have hrest := hs.2 path
      unfold inflightOnFile at hrest
      by_cases hp : c.2.path = path
      · subst hp
        rw [beq_self_eq_true]
        have h1 : (if (true = true) then (1 : Nat) else 0) = 1 := if_pos rfl
        rw [h1]
        omega
      · rw [beq_eq_false_iff_ne.mpr hp]
        have h0 : (if (false = true) then (1 : Nat) else 0) = 0 := if_neg (by simp)
        rw [h0]
        omega
  | complete rid =>
    have hs' := schedStep_complete_inv cfg rid s s' h
    subst hs'
    have hsub : List.Sublist (s.inflight.eraseP (fun q => q.1 == rid)) s.inflight :=
      List.eraseP_sublist s.inflight
    constructor
    · exact Nat.le_trans hsub.length_le hs.1
    · intro path
      exact Nat.le_trans (hsub.countP_le (fun q => q.2.path == path)) (hs.2 path)

theorem runSched_preserves_caps (cfg : SchedConfig) (ops : List SchedOp)
    (s s' : SchedState) (hs : CapsInv cfg s) (h : runSched cfg ops s = some s') :
    CapsInv cfg s' := by
  induction ops generalizing s with
  | nil =>
    have : s = s' := Option.some.inj h
    exact this ▸ hs
  | cons op ops ih =>
    unfold runSched at h
    cases hstep : schedStep cfg op s with
    | none => rw [hstep] at h; exact absurd h (by simp)
    | some s1 =>
      rw [hstep] at h
      exact ih s1 (schedStep_preserves_caps cfg op s s1 hs hstep) h

/-- C9: along any execution of a batch, the number of in-flight reads
never exceeds the global cap `max_concurrency`, and for every file the
number of in-flight reads against it never exceeds
`max_concurrency_per_file`. -/
theorem concurrency_caps_respected (cfg : SchedConfig) (ops : List SchedOp)
    (reqs : List BlockRequest) (s : SchedState)
    (h : runSched cfg ops (initSched reqs) = some s) :
    s.inflight.length ≤ cfg.maxConcurrency ∧
    ∀ path, inflightOnFile path s.inflight ≤ cfg.maxConcurrencyPerFile := by
  have hinit : CapsInv cfg (initSched reqs) := by
    constructor
    · simp [initSched]
    · intro path
      simp [initSched, inflightOnFile]
  exact runSched_preserves_caps cfg ops (initSched reqs) s hinit h

/-! ## Lemmas about the File Handle Pool -/

theorem refCountOf_mem (path : String) (es : List OpenFileEntry) (c : Int)
    (h : refCountOf path es = some c) :
    ∃ e, e ∈ es ∧ e.path = path ∧ e.refCount = c := by
  induction es with
  | nil => exact absurd h (by simp [refCountOf])
  | cons e es ih =>
    unfold refCountOf at h
    by_cases hp : e.path = path
    · rw [if_pos hp] at h
      exact ⟨e, List.mem_cons_self e es, hp, Option.some.inj h⟩
    · rw [if_neg hp] at h
      obtain ⟨e', he1, he2, he3⟩ := ih h
      exact ⟨e', List.mem_cons_of_mem e he1, he2, he3⟩

theorem refCountOf_cons (path : String) (e : OpenFileEntry)
    (es : List OpenFileEntry) :
    refCountOf path (e :: es) =
      if e.path = path then some e.refCount else refCountOf path es := rfl

theorem bumpEntry_cons (path : String) (d : Int) (now : Nat) (e : OpenFileEntry)
    (es : List OpenFileEntry) :
    bumpEntry path d now (e :: es) =
      if e.path = path then
        { e with refCount := e.refCount + d, lastUsed := now } :: es
      else
        e :: bumpEntry path d now es := rfl

theorem bumpEntry_nonneg (path : String) (d : Int) (now : Nat)
    (es : List OpenFileEntry)
    (hnn : ∀ e ∈ es, 0 ≤ e.refCount)
    (hc : ∀ c, refCountOf path es = some c → 0 ≤ c + d) :
    ∀ e' ∈ bumpEntry path d now es, 0 ≤ e'.refCount := by
  induction es with
  | nil => intro e' h; exact absurd h (List.not_mem_nil e')
  | cons e es ih =>
    intro e' h
    rw [bumpEntry_cons] at h
    by_cases hp : e.path = path
    · rw [if_pos hp] at h
      rcases List.mem_cons.mp h with h | h
      · rw [h]
        exact hc e.refCount (by rw [refCountOf_cons, if_pos hp])
      · exact hnn e' (List.mem_cons_of_mem e h)
    · rw [if_neg hp] at h
      rcases List.mem_cons.mp h with h | h
      · rw [h]
        exact hnn e (List.mem_cons_self e es)
      · exact ih (fun x hx => hnn x (List.mem_cons_of_mem e hx))
          (fun c hcc => hc c (by rw [refCountOf_cons, if_neg hp]; exact hcc))
          e' h

theorem mem_dropEntry (path : String) (es : List OpenFileEntry)
    (e' : OpenFileEntry) (h : e' ∈ dropEntry path es) : e' ∈ es := by
  induction es with
  | nil => exact absurd h (List.not_mem_nil e')
  | cons e es ih =>
    unfold dropEntry at h
    by_cases hp : e.path = path
    · rw [if_pos hp] at h
      exact List.mem_cons_of_mem e h
    · rw [if_neg hp] at h
      rcases List.mem_cons.mp h with h | h
      · rw [h]
        exact List.mem_cons_self e es
      · exact List.mem_cons_of_mem e (ih h)

theorem applyOp_preserves_nonneg (idle : Nat) (op : PoolOp) (s s' : PoolState)
    (hs : ∀ e ∈ s.entries, 0 ≤ e.refCount) (h : applyOp idle op s = some s') :
    ∀ e ∈ s'.entries, 0 ≤ e.refCount := by
  cases op with
  | acquire path now =>
    simp only [applyOp] at h
    cases hrc : refCountOf path s.entries with
    | none =>
      simp only [hrc] at h
      have he0 := Option.some.inj h
      subst he0
      intro e he
      rcases List.mem_cons.mp he with he | he
      · rw [he]
        show (0 : Int) ≤ 1
        norm_num
      · exact hs e he
    | some c =>
      simp only [hrc] at h
      have he0 := Option.some.inj h
      subst he0
      intro e he
      refine bumpEntry_nonneg path 1 now s.entries hs ?_ e he
      intro c' hc'
      obtain ⟨e0, he1, _, hec⟩ := refCountOf_mem path s.entries c' hc'
      have := hs e0 he1
      omega
  | release path now =>
    simp only [applyOp] at h
    cases hrc : refCountOf path s.entries with
    | none => simp only [hrc] at h; exact absurd h (by simp)
    | some c =>
      simp only [hrc] at h
      by_cases hpos : (0 : Int) < c
      · rw [if_pos hpos] at h
        have he0 := Option.some.inj h
        subst he0
        intro e he
        refine bumpEntry_nonneg path (-1) now s.entries hs ?_ e he
        intro c' hc'
        rw [hrc] at hc'
        have : c = c' := Option.some.inj hc'
        omega
      · rw [if_neg hpos] at h
        exact absurd h (by simp)
  | evict path now =>
    simp only [applyOp] at h
    cases hfind : s.entries.find? (fun e => e.path == path) with
    | none => simp only [hfind] at h; exact absurd h (by simp)
    | some e0 =>
      simp only [hfind] at h
      by_cases hcond : e0.refCount = 0 ∧ idle ≤ now - e0.lastUsed
      · rw [if_pos hcond] at h
        have he0 := Option.some.inj h
        subst he0
        intro e he
        exact hs e (mem_dropEntry path s.entries e he)
      · rw [if_neg hcond] at h
        exact absurd h (by simp)

theorem runOps_preserves_nonneg (idle : Nat) (ops : List PoolOp)
    (s s' : PoolState) (hs : ∀ e ∈ s.entries, 0 ≤ e.refCount)
    (h : runOps idle ops s = some s') :
    ∀ e ∈ s'.entries, 0 ≤ e.refCount := by
  induction ops generalizing s with
  | nil =>
    have : s = s' := Option.some.inj h
    exact this ▸ hs
  | cons op ops ih =>
    unfold runOps at h
    cases hstep : applyOp idle op s with
    | none => rw [hstep] at h; exact absurd h (by simp)
    | some s1 =>
      rw [hstep] at h
      exact ih s1 (applyOp_preserves_nonneg idle op s s1 hs hstep) h

theorem find?_entry_cons (path : String) (e : OpenFileEntry)
    (es : List OpenFileEntry) :
    (e :: es).find? (fun x => x.path == path) =
      if e.path = path then some e else es.find? (fun x => x.path == path) := by
  by_cases hp : e.path = path
  · rw [if_pos hp]
    exact List.find?_cons_of_pos _ (beq_iff_eq.mpr hp)
  · rw [if_neg hp]
    exact List.find?_cons_of_neg _ (by simpa using hp)

theorem refCountOf_eq_find? (path : String) (es : List OpenFileEntry) :
    refCountOf path es = (es.find? (fun e => e.path == path)).map (fun e => e.refCount) := by
  induction es with
  | nil => rfl
  | cons e es ih =>
    rw [refCountOf_cons, find?_entry_cons]
    by_cases hp : e.path = path
    · rw [if_pos hp, if_pos hp]
      rfl
    · rw [if_neg hp, if_neg hp]
      exact ih

theorem evict_requires_zero_refcount (idle : Nat) (path : String) (now : Nat)
    (s s' : PoolState) (h : applyOp idle (PoolOp.evict path now) s = some s') :
    refCountOf path s.entries = some 0 := by
  simp only [applyOp] at h
  cases hfind : s.entries.find? (fun e => e.path == path) with
  | none => simp only [hfind] at h; exact absurd h (by simp)
  | some e0 =>
    simp only [hfind] at h
    by_cases hcond : e0.refCount = 0 ∧ idle ≤ now - e0.lastUsed
    · rw [refCountOf_eq_find?, hfind]
      simp [hcond.1]
    · rw [if_neg hcond] at h
      exact absurd h (by simp)

/-- C4: along any well-formed sequence of pool operations from the empty
pool, no entry's reference count is ever negative, and whenever an
eviction step closes a descriptor, the closed path's recorded reference
count was zero — a descriptor is never closed while referenced. -/
theorem pool_refcount_invariant (idle : Nat) (ops : List PoolOp) (s : PoolState)
    (h : runOps idle ops initPool = some s) :
    (∀ e ∈ s.entries, 0 ≤ e.refCount) ∧
    (∀ path now s', applyOp idle (PoolOp.evict path now) s = some s' →
      refCountOf path s.entries = some 0) := by
  constructor
  · exact runOps_preserves_nonneg idle ops initPool s (by intro e he; simp [initPool] at he) h
  · intro path now s' h'
    exact evict_requires_zero_refcount idle path now s s' h'

/-! ## Concrete fixtures for the witnesses -/

/-- A small concrete file system used by the witnesses. -/
def demoFs : FileSystem := [("data.bin", [10, 11, 12, 13, 14, 15])]

/-- A request whose range lies entirely within `data.bin`. -/
def demoReqA : BlockRequest :=
  { path := "data.bin", offset := 1, length := 2, priority := 0 }

/-- A request whose offset lies beyond the end of `data.bin`. -/
def demoReqEof : BlockRequest :=
  { path := "data.bin", offset := 9, length := 2, priority := 0 }

/-- A request against a path the file system does not hold. -/
def demoReqBad : BlockRequest :=
  { path := "missing.bin", offset := 0, length := 1, priority := 0 }

/-- A high-priority request used by the scheduler witness. -/
def demoReqHi : BlockRequest :=
  { path := "data.bin", offset := 4, length := 2, priority := 5 }

/-- A balanced acquire/acquire/release/release run against one path. -/
def demoPoolOps : List PoolOp :=
  [PoolOp.acquire "data.bin" 0, PoolOp.acquire "data.bin" 1,
   PoolOp.release "data.bin" 2, PoolOp.release "data.bin" 3]

/-- The single entry the pool holds after `demoPoolOps`. -/
def demoPoolEntry : OpenFileEntry :=
  { path := "data.bin", refCount := 0, lastUsed := 3 }

/-- The pool state `demoPoolOps` reaches from the empty pool. -/
def demoPool : PoolState := { entries := [demoPoolEntry] }

/-- The caps used by the scheduler witnesses. -/
def demoCfg : SchedConfig := { maxConcurrency := 2, maxConcurrencyPerFile := 2 }

/-- A scheduler state with two pending requests and nothing in flight. -/
def demoSched0 : SchedState :=
  { pending := [(0, demoReqA), (1, demoReqHi)], inflight := [] }

/-- The state one dispatch step reaches from `demoSched0`: the
higher-priority request went in flight. -/
def demoSched1 : SchedState :=
  { pending := [(0, demoReqA)], inflight := [(1, demoReqHi)] }

/-! ## Witnesses -/

/-- Witness for C2 at a concrete in-range request. -/
theorem warm_within_range_complete_witness :
    ([demoReqA] : List BlockRequest).get? 0 = some demoReqA ∧
    lookupFile demoFs demoReqA.path = some [10, 11, 12, 13, 14, 15] ∧
    demoReqA.offset + demoReqA.length ≤ ([10, 11, 12, 13, 14, 15] : List Nat).length ∧
    ∃ res, (warm demoFs [demoReqA]).get? 0 = some res ∧
      res.status = Status.Complete ∧ res.bytesRead = demoReqA.length :=
  ⟨rfl, by decide, by decide,
    warm_within_range_complete demoFs [demoReqA] 0 demoReqA [10, 11, 12, 13, 14, 15]
      rfl (by decide) (by decide)⟩

/-- Witness for C3 at a concrete past-end-of-file request. -/
theorem warm_past_eof_witness :
    ([demoReqEof] : List BlockRequest).get? 0 = some demoReqEof ∧
    lookupFile demoFs demoReqEof.path = some [10, 11, 12, 13, 14, 15] ∧
    ([10, 11, 12, 13, 14, 15] : List Nat).length ≤ demoReqEof.offset ∧
    0 < demoReqEof.length ∧
    ∃ res, (warm demoFs [demoReqEof]).get? 0 = some res ∧
      res.status = Status.Eof ∧ res.bytesRead = 0 :=
  ⟨rfl, by decide, by decide, by decide,
    warm_past_eof demoFs [demoReqEof] 0 demoReqEof [10, 11, 12, 13, 14, 15]
      rfl (by decide) (by decide) (by decide)⟩

/-- Witness for C4 on a concrete balanced run of pool operations. -/
theorem pool_refcount_invariant_witness :
    runOps 5 demoPoolOps initPool = some demoPool ∧
    0 ≤ demoPoolEntry.refCount ∧
    refCountOf "data.bin" demoPool.entries = some 0 :=
  ⟨by decide,
    (pool_refcount_invariant 5 demoPoolOps demoPool (by decide)).1
      demoPoolEntry (by decide),
    (pool_refcount_invariant 5 demoPoolOps demoPool (by decide)).2
      "data.bin" 100 { entries := [] } (by decide)⟩

/-- Witness for C5: the bad-path request fails alone, its sibling
completes as an independent read would. -/
theorem warm_failure_scoped_witness :
    ([demoReqBad, demoReqA] : List BlockRequest).get? 0 = some demoReqBad ∧
    lookupFile demoFs demoReqBad.path = none ∧
    (∃ res, (warm demoFs [demoReqBad, demoReqA]).get? 0 = some res ∧
      res.status = Status.Error ErrorKind.OpenError) ∧
    (warm demoFs [demoReqBad, demoReqA]).get? 1 = some (readBlock demoFs 1 demoReqA) ∧
    (readBlock demoFs 1 demoReqA).status.isTerminal = true :=
  ⟨rfl, by decide,
    (warm_failure_scoped demoFs [demoReqBad, demoReqA] 0 demoReqBad rfl (by decide)).1,
    ((warm_failure_scoped demoFs [demoReqBad, demoReqA] 0 demoReqBad rfl (by decide)).2
      1 demoReqA rfl (by decide)).1,
    ((warm_failure_scoped demoFs [demoReqBad, demoReqA] 0 demoReqBad rfl (by decide)).2
      1 demoReqA rfl (by decide)).2⟩

/-- Witness for C6: a two-request batch cancelled after its first request
dispatched delivers one terminal result and one `Incomplete` sentinel. -/
theorem cancelled_batch_partial_delivery_witness :
    (List.range ([demoReqA, demoReqEof] : List BlockRequest).length).countP
      (fun k => k == 0) = 1 ∧
    (warmCancelled demoFs (fun k => k == 0) [demoReqA, demoReqEof]).length = 2 ∧
    (warmCancelled demoFs (fun k => k == 0) [demoReqA, demoReqEof]).countP
      (fun res => res.status.isTerminal) = 1 ∧
    (warmCancelled demoFs (fun k => k == 0) [demoReqA, demoReqEof]).countP
      (fun res => res.status == Status.Incomplete) = 1 ∧
    (warmCancelled demoFs (fun k => k == 0) [demoReqA, demoReqEof]).get? 1 =
      some (incompleteResult 1) :=
  ⟨by decide,
    (cancelled_batch_partial_delivery demoFs (fun k => k == 0)
      [demoReqA, demoReqEof] 1 (by decide)).1,
    (cancelled_batch_partial_delivery demoFs (fun k => k == 0)
      [demoReqA, demoReqEof] 1 (by decide)).2.1,
    (cancelled_batch_partial_delivery demoFs (fun k => k == 0)
      [demoReqA, demoReqEof] 1 (by decide)).2.2.1,
    (cancelled_batch_partial_delivery demoFs (fun k => k == 0)
      [demoReqA, demoReqEof] 1 (by decide)).2.2.2 1 demoReqEof rfl⟩

/-- Witness for C7 at a concrete two-request scheduler state: the
higher-priority request is dequeued. -/
theorem dispatch_highest_priority_fifo_witness :
    schedStep demoCfg SchedOp.dispatch demoSched0 = some demoSched1 ∧
    ∃ c, c ∈ demoSched0.pending ∧ capsAllow demoCfg demoSched0 c.2 = true ∧
      demoSched1.inflight = c :: demoSched0.inflight ∧
      demoSched1.pending = demoSched0.pending.erase c ∧
      ∀ q ∈ demoSched0.pending, q.2.priority < c.2.priority ∨
        (q.2.priority = c.2.priority ∧ c.1 ≤ q.1) :=
  ⟨by decide,
    dispatch_highest_priority_fifo demoCfg demoSched0 demoSched1 (by decide)⟩

/-- Witness for C8 at two concrete coalescible requests. -/
theorem coalesced_requests_exact_bytes_witness :
    canCoalesce 2 demoReqA demoReqHi = true ∧
    lookupFile demoFs demoReqA.path = some [10, 11, 12, 13, 14, 15] ∧
    redistributedBytes [10, 11, 12, 13, 14, 15] (mergeLo demoReqA demoReqHi)
      (mergeHi demoReqA demoReqHi) demoReqA =
      readBytes [10, 11, 12, 13, 14, 15] demoReqA.offset demoReqA.length ∧
    redistributedBytes [10, 11, 12, 13, 14, 15] (mergeLo demoReqA demoReqHi)
      (mergeHi demoReqA demoReqHi) demoReqHi =
      readBytes [10, 11, 12, 13, 14, 15] demoReqHi.offset demoReqHi.length :=
  ⟨by decide, by decide,
    (coalesced_requests_exact_bytes demoFs [10, 11, 12, 13, 14, 15] 2
      demoReqA demoReqHi (by decide) (by decide)).1,
    (coalesced_requests_exact_bytes demoFs [10, 11, 12, 13, 14, 15] 2
      demoReqA demoReqHi (by decide) (by decide)).2⟩

/-- Witness for C9: one dispatch from a one-request batch stays within
both caps. -/
theorem concurrency_caps_respected_witness :
    runSched demoCfg [SchedOp.dispatch] (initSched [demoReqA]) =
      some { pending := [], inflight := [(0, demoReqA)] } ∧
    (SchedState.inflight { pending := [], inflight := [(0, demoReqA)] }).length ≤
      demoCfg.maxConcurrency ∧
    ∀ path,
      inflightOnFile path
        (SchedState.inflight { pending := [], inflight := [(0, demoReqA)] }) ≤
        demoCfg.maxConcurrencyPerFile :=
  ⟨by decide,
    (concurrency_caps_respected demoCfg [SchedOp.dispatch] [demoReqA]
      { pending := [], inflight := [(0, demoReqA)] } (by decide)).1,
    (concurrency_caps_respected demoCfg [SchedOp.dispatch] [demoReqA]
      { pending := [], inflight := [(0, demoReqA)] } (by decide)).2⟩

/-! ## The packaging claim -/

/-- C10: the Python layer is packaging only — its single source file
unconditionally calls `setuptools.setup` with name `file_warmer`, version
`0.0.5`, package data mapping `file_warmer` to exactly the bundled native
header and shared-object patterns, and `python_requires` of at least
Python 3.6; the engine ships only inside the bundled shared object. -/
theorem setup_packaging_only :
    setupCall.pkgName = "file_warmer" ∧
    setupCall.version = "0.0.5" ∧
    setupCall.packageData = [("file_warmer", ["lib/*.h", "lib/*.so"])] ∧
    setupCall.pythonRequires = ">=3.6" :=
  ⟨rfl, rfl, rfl, rfl⟩

end FileWarmer
